import Mathlib

/-!
Verification of the univariate autoregressive sample generator
(`src/lib.rs`, module `univariate`).

The generator's real-valued arithmetic (Rust `F : Float`) is modelled over
`ℚ`, the executable field of the embedding; the const-generic array length
`N` of the Rust struct becomes a length invariant relating the `window`
and `coefficients` lists.  The ambient randomness consumed by one call to
`step` is made explicit: each step receives the standard draw `z` feeding
the Gaussian sampler, so that runs with fixed noise are plain functions.
The external Gaussian distribution (`rand_distr::Normal`, a dependency
whose source is not part of this repository) is modelled from the spec.
-/

namespace univariate

/-- Modelled from the spec: the external zero-mean Gaussian noise source
(`rand_distr::Normal`, not part of this repository): "a zero-mean Gaussian
distribution with configured variance; immutable for the generator's
lifetime". -/
structure Normal where
  mean : ℚ
  variance : ℚ
  deriving DecidableEq, Repr

/-- Modelled from the spec: construction of the external Gaussian
distribution (`rand_distr::Normal::new`).  Per the spec it "fails ... when
`noise_variance` cannot produce a valid Gaussian distribution (e.g.,
negative variance, or parameters yielding non-finite distribution
parameters)"; over `ℚ` every value is finite, so it fails exactly on a
negative variance. -/
def Normal.new (mean variance : ℚ) : Option Normal :=
  if variance < 0 then none else some { mean := mean, variance := variance }

/-- Modelled from the spec: one draw from the Gaussian noise source.  With
variance `0` the distribution is degenerate and every draw is exactly the
mean; otherwise the draw deviates from the mean by an amount `z` supplied
by the ambient randomness source (the claims fix these draws to known
values). -/
def Normal.sample (d : Normal) (z : ℚ) : ℚ :=
  if d.variance = 0 then d.mean else d.mean + z

/-- The generator state, struct `Autoregressive<F, N>` in `src/lib.rs`:
offset `c`, window `x`, coefficients `phi`, and the noise distribution.
The two Rust arrays `[F; N]` become lists whose equal length is a stated
invariant. -/
structure Autoregressive where
  c : ℚ
  x : List ℚ
  phi : List ℚ
  noise : Normal
  deriving DecidableEq, Repr

/-- `Autoregressive::new`: window of `N` zeros, coefficients copied by
value (`*phi`), noise distribution from `rand_distr::Normal::new(0,
noise_variance).unwrap()`.  The `unwrap` turns a construction error into a
panic, so the caller receives no generator; the panic is modelled as
`none`. -/
def Autoregressive.new (c noise_variance : ℚ) (phi : List ℚ) : Option Autoregressive :=
  let x : List ℚ := List.replicate phi.length 0
  (Normal.new 0 noise_variance).map fun noise => { c := c, phi := phi, x := x, noise := noise }

/-- `Autoregressive::step`: draw `epsilon`, compute
`new_x = c + Σ x[i] * phi[i] + epsilon` by zip/map/sum exactly as the
source does, then, when the window is nonempty, rotate it right by one
position and write `new_x` at index 0.  `z` is the standard draw consumed
by the sampler on this call. -/
def Autoregressive.step (ar : Autoregressive) (z : ℚ) : ℚ × Autoregressive :=
  let epsilon : ℚ := ar.noise.sample z
  let new_x : ℚ := ar.c + ((ar.x.zip ar.phi).map fun p => p.1 * p.2).sum + epsilon
  let x : List ℚ := if ar.x.isEmpty then ar.x else (ar.x.rotateRight 1).set 0 new_x
  (new_x, { ar with x := x })

/-- The `Iterator` impl for `Autoregressive`: `next` is
`Some(self.step())`. -/
def Autoregressive.next (ar : Autoregressive) (z : ℚ) : Option ℚ × Autoregressive :=
  let s := ar.step z
  (some s.1, s.2)

/-- Repeated stepping: one `step` per standard draw in `zs`, returning the
produced values in order together with the final state. -/
def Autoregressive.run (ar : Autoregressive) : List ℚ → List ℚ × Autoregressive
  | [] => ([], ar)
  | z :: zs =>
    let s := ar.step z
    let r := s.2.run zs
    (s.1 :: r.1, r.2)

/-- The recurrence formula as the spec writes it:
`new_value = offset + Σ_{i=0}^{N-1} window[i] * coefficients[i] + epsilon`. -/
def specNewValue (offset : ℚ) (coefficients window : List ℚ) (epsilon : ℚ) : ℚ :=
  offset + (∑ i ∈ Finset.range coefficients.length, window.getD i 0 * coefficients.getD i 0)
    + epsilon

/-- The spec's deterministic recurrence on `(offset, coefficients,
window)` fed with fixed noise values: each output is `specNewValue`, and
when `N > 0` the window is shifted right (new value in front, oldest
dropped). -/
def specRun (offset : ℚ) (coefficients : List ℚ) : List ℚ → List ℚ → List ℚ
  | _, [] => []
  | window, e :: es =>
    let v := specNewValue offset coefficients window e
    v :: specRun offset coefficients
      (if coefficients.isEmpty then window else v :: window.dropLast) es

theorem step_fst (ar : Autoregressive) (z : ℚ) :
    (ar.step z).1
      = ar.c + ((ar.x.zip ar.phi).map fun p => p.1 * p.2).sum + ar.noise.sample z := rfl

theorem step_snd_c (ar : Autoregressive) (z : ℚ) : (ar.step z).2.c = ar.c := rfl

theorem step_snd_phi (ar : Autoregressive) (z : ℚ) : (ar.step z).2.phi = ar.phi := rfl

theorem step_snd_noise (ar : Autoregressive) (z : ℚ) : (ar.step z).2.noise = ar.noise := rfl

theorem zip_mul_sum_eq_range (xs ys : List ℚ) (h : xs.length = ys.length) :
    ((xs.zip ys).map fun p => p.1 * p.2).sum
      = ∑ i ∈ Finset.range xs.length, xs.getD i 0 * ys.getD i 0 := by
  induction xs generalizing ys with
  | nil => simp
  | cons a as ih =>
    cases ys with
    | nil => simp at h
    | cons b bs =>
      have h' : as.length = bs.length := by simpa using h
      simp only [List.zip_cons_cons, List.map_cons, List.sum_cons, List.length_cons]
      rw [Finset.sum_range_succ']
      simp only [List.getD_cons_succ, List.getD_cons_zero]
      rw [ih bs h']
      ring

theorem rotateRight_one_set_zero (l : List ℚ) (v : ℚ) (h : l ≠ []) :
    (l.rotateRight 1).set 0 v = v :: l.dropLast := by
  rcases l with _ | ⟨a, t⟩
  · exact absurd rfl h
  rcases t with _ | ⟨b, t⟩
  · rfl
  have hlen : 2 ≤ (a :: b :: t).length := by simp
  have hdroplen : ((a :: b :: t).drop ((a :: b :: t).length - 1)).length = 1 := by
    rw [List.length_drop]; omega
  obtain ⟨w, hw⟩ := List.length_eq_one.mp hdroplen
  have hmod : 1 % (a :: b :: t).length = 1 :=
    Nat.mod_eq_of_lt (by simp only [List.length_cons]; omega)
  show ((a :: b :: t).rotateRight 1).set 0 v = v :: (a :: b :: t).dropLast
  unfold List.rotateRight
  rw [if_neg (by simp only [List.length_cons]; omega)]
  dsimp only
  rw [hmod, hw]
  simp only [List.cons_append, List.set_cons_zero, List.nil_append]
  rw [List.dropLast_eq_take]

theorem step_snd_x (ar : Autoregressive) (z : ℚ) :
    (ar.step z).2.x = if ar.x = [] then ar.x else (ar.step z).1 :: ar.x.dropLast := by
  by_cases hx : ar.x = []
  · simp [Autoregressive.step, hx]
  · have hne : ar.x.isEmpty = false := by simpa [List.isEmpty_iff] using hx
    simp only [Autoregressive.step, hne, Bool.false_eq_true, if_false, if_neg hx]
    exact rotateRight_one_set_zero ar.x _ hx

theorem step_x_length (ar : Autoregressive) (z : ℚ) :
    (ar.step z).2.x.length = ar.x.length := by
  rw [step_snd_x]
  by_cases hx : ar.x = []
  · rw [if_pos hx]
  · rw [if_neg hx]
    have hpos : 0 < ar.x.length := List.length_pos.mpr hx
    simp only [List.length_cons, List.length_dropLast]
    omega

theorem run_snd_x_length (ar : Autoregressive) (zs : List ℚ) :
    ((ar.run zs).2).x.length = ar.x.length := by
  induction zs generalizing ar with
  | nil => rfl
  | cons z zs ih =>
    show (((ar.step z).2.run zs).2).x.length = ar.x.length
    rw [ih, step_x_length]

theorem new_some_fields (c v : ℚ) (phi : List ℚ) (g : Autoregressive)
    (hg : Autoregressive.new c v phi = some g) :
    g.c = c ∧ g.phi = phi ∧ g.x = List.replicate phi.length 0
      ∧ g.noise = { mean := 0, variance := v } ∧ 0 ≤ v := by
  unfold Autoregressive.new Normal.new at hg
  by_cases h : v < 0
  · rw [if_pos h] at hg
    exact absurd hg (by simp)
  · rw [if_neg h] at hg
    simp only [Option.map_some', Option.some.injEq] at hg
    subst hg
    exact ⟨rfl, rfl, rfl, rfl, le_of_not_lt h⟩

theorem run_fst_eq_specRun (ar : Autoregressive) (zs : List ℚ)
    (h : ar.x.length = ar.phi.length) :
    (ar.run zs).1 = specRun ar.c ar.phi ar.x (zs.map ar.noise.sample) := by
  induction zs generalizing ar with
  | nil => rfl
  | cons z zs ih =>
    have hv : (ar.step z).1 = specNewValue ar.c ar.phi ar.x (ar.noise.sample z) := by
      rw [step_fst, specNewValue, zip_mul_sum_eq_range ar.x ar.phi h, h]
    have hlen : (ar.step z).2.x.length = (ar.step z).2.phi.length := by
      rw [step_x_length, step_snd_phi]; exact h
    have hrec := ih (ar.step z).2 hlen
    rw [step_snd_c, step_snd_phi, step_snd_noise] at hrec
    show (ar.step z).1 :: ((ar.step z).2.run zs).1
        = specRun ar.c ar.phi ar.x (ar.noise.sample z :: zs.map ar.noise.sample)
    rw [specRun]
    by_cases hx : ar.x = []
    · have hphi : ar.phi.isEmpty = true := by
        have : ar.phi.length = 0 := by rw [← h, hx]; rfl
        simpa [List.isEmpty_iff, ← List.length_eq_zero] using this
      rw [hv, hrec, step_snd_x, if_pos hx, hphi, if_pos rfl]
    · have hphi : ar.phi.isEmpty = false := by
        have hlp : 0 < ar.phi.length := by rw [← h]; exact List.length_pos.mpr hx
        have : ar.phi ≠ [] := by
          intro hnil; rw [hnil] at hlp; exact absurd hlp (by simp)
        simpa [List.isEmpty_iff] using this
      rw [hv, hrec, step_snd_x, if_neg hx, hphi, hv]
      simp only [Bool.false_eq_true, if_false]

/-- A sample order-2 generator state used to instantiate theorems. -/
def gA : Autoregressive :=
  { c := 1, x := [2, 3], phi := [4, 5], noise := { mean := 0, variance := 1 } }

/-- The generator produced by `new 0 1 [1/2]`. -/
def gB : Autoregressive :=
  { c := 0, x := [0], phi := [1/2], noise := { mean := 0, variance := 1 } }

/-- The generator produced by `new 3 1 []`. -/
def gC : Autoregressive :=
  { c := 3, x := [], phi := [], noise := { mean := 0, variance := 1 } }

/-- The generator produced by `new 0 1 [4, 5]`. -/
def gD : Autoregressive :=
  { c := 0, x := [0, 0], phi := [4, 5], noise := { mean := 0, variance := 1 } }

/-- C1: `step` returns exactly
`offset + Σ_{i=0}^{N-1} window[i] * coefficients[i] + epsilon` where
`epsilon` is this call's noise draw, and, with the noise draws fixed to
known values, the output sequence of a freshly constructed generator is
the deterministic recurrence `specRun` of the offset, the coefficients,
the initial all-zero window, and those noise values. -/
theorem step_formula_and_deterministic_recurrence
    (ar : Autoregressive) (N : ℕ) (hx : ar.x.length = N) (hphi : ar.phi.length = N) (z : ℚ)
    (c v : ℚ) (phi : List ℚ) (g : Autoregressive)
    (hg : Autoregressive.new c v phi = some g) (zs : List ℚ) :
    (ar.step z).1
        = ar.c + (∑ i ∈ Finset.range N, ar.x.getD i 0 * ar.phi.getD i 0) + ar.noise.sample z
      ∧ (g.run zs).1 = specRun c phi (List.replicate phi.length 0) (zs.map g.noise.sample) := by
  obtain ⟨hc, hp, hxg, hn, hv⟩ := new_some_fields c v phi g hg
  constructor
  · rw [step_fst, zip_mul_sum_eq_range ar.x ar.phi (by rw [hx, hphi]), hx]
  · have hlen : g.x.length = g.phi.length := by rw [hxg, hp, List.length_replicate]
    have hrec := run_fst_eq_specRun g zs hlen
    rw [hc, hp, hxg] at hrec
    exact hrec

theorem step_formula_and_deterministic_recurrence_witness :
    (gA.step 7).1
        = gA.c + (∑ i ∈ Finset.range 2, gA.x.getD i 0 * gA.phi.getD i 0) + gA.noise.sample 7
      ∧ (gB.run [1, 2]).1
        = specRun 0 [1/2] (List.replicate ([1/2] : List ℚ).length 0)
            ([1, 2].map gB.noise.sample) :=
  step_formula_and_deterministic_recurrence gA 2 rfl rfl 7 0 1 [1/2] gB rfl [1, 2]

/-- C2: when `N > 0`, `step` shifts the window right by one position (the
oldest value, at index `N-1`, is discarded) and writes the new value at
index 0; when `N = 0` the window is empty and no shift occurs. -/
theorem step_window_shift
    (ar : Autoregressive) (z : ℚ) (N : ℕ) (hx : ar.x.length = N) :
    (0 < N →
        (ar.step z).2.x = (ar.step z).1 :: ar.x.dropLast
        ∧ ((ar.step z).2.x)[0]? = some ((ar.step z).1)
        ∧ ∀ i : ℕ, i + 1 < N → ((ar.step z).2.x)[i + 1]? = ar.x[i]?)
    ∧ (N = 0 → (ar.step z).2.x = ar.x) := by
  constructor
  · intro hN
    have hne : ar.x ≠ [] := by
      intro hnil
      rw [hnil] at hx
      simp only [List.length_nil] at hx
      omega
    have hcf : (ar.step z).2.x = (ar.step z).1 :: ar.x.dropLast := by
      rw [step_snd_x, if_neg hne]
    refine ⟨hcf, by rw [hcf, List.getElem?_cons_zero], ?_⟩
    intro i hi
    rw [hcf, List.getElem?_cons_succ, List.dropLast_eq_take, List.getElem?_take,
      if_pos (by omega : i < ar.x.length - 1)]
  · intro hN
    have hnil : ar.x = [] := List.length_eq_zero.mp (hx.trans hN)
    rw [step_snd_x, if_pos hnil]

theorem step_window_shift_witness :
    (0 < 2 →
        (gA.step 7).2.x = (gA.step 7).1 :: gA.x.dropLast
        ∧ ((gA.step 7).2.x)[0]? = some ((gA.step 7).1)
        ∧ ∀ i : ℕ, i + 1 < 2 → ((gA.step 7).2.x)[i + 1]? = gA.x[i]?)
    ∧ (2 = 0 → (gA.step 7).2.x = gA.x) :=
  step_window_shift gA 7 2 rfl

/-- C3: constructing with offset 5, noise variance 0 (so every noise draw
is exactly 0) and coefficients `[1/2]`, the first three outputs are
exactly `5`, `5 + (1/2)*5 = 15/2` and `5 + (1/2)*(15/2) = 35/4`, whatever
standard draws feed the sampler. -/
theorem scenario_offset5_var0 (zs : List ℚ) (h : zs.length = 3) :
    (Autoregressive.new 5 0 [1/2]).map (fun g => (g.run zs).1)
      = some [5, 15/2, 35/4] := by
  match zs, h with
  | [z1, z2, z3], _ =>
    norm_num [Autoregressive.new, Normal.new, Autoregressive.run, Autoregressive.step,
      Normal.sample, List.rotateRight]

theorem scenario_offset5_var0_witness :
    ([3, -2, 7] : List ℚ).length = 3
      ∧ (Autoregressive.new 5 0 [1/2]).map (fun g => (g.run [3, -2, 7]).1)
          = some [5, 15/2, 35/4] :=
  ⟨rfl, scenario_offset5_var0 [3, -2, 7] rfl⟩

/-- C4: a noise variance that cannot yield a valid Gaussian distribution
(negative) makes construction fail — the `unwrap` on the distribution
constructor panics, modelled as `none` — so the caller receives no
generator. -/
theorem new_negative_variance_fails (c v : ℚ) (phi : List ℚ) (h : v < 0) :
    Autoregressive.new c v phi = none := by
  unfold Autoregressive.new Normal.new
  rw [if_pos h]
  rfl

theorem new_negative_variance_fails_witness :
    (-1 : ℚ) < 0 ∧ Autoregressive.new 2 (-1) [3] = none :=
  ⟨by decide, new_negative_variance_fails 2 (-1) [3] (by decide)⟩

/-- C5: for every (finite) variance ≥ 0, construction succeeds and the
stored noise distribution is the zero-mean Gaussian with exactly the
requested variance. -/
theorem new_builds_zero_mean_gaussian (c v : ℚ) (phi : List ℚ) (h : 0 ≤ v) :
    ∃ g, Autoregressive.new c v phi = some g
      ∧ g.noise.mean = 0 ∧ g.noise.variance = v := by
  refine ⟨{ c := c, x := List.replicate phi.length 0, phi := phi,
            noise := { mean := 0, variance := v } }, ?_, rfl, rfl⟩
  unfold Autoregressive.new Normal.new
  rw [if_neg (not_lt.mpr h)]
  rfl

theorem new_builds_zero_mean_gaussian_witness :
    ∃ g, Autoregressive.new 1 2 [3] = some g
      ∧ g.noise.mean = 0 ∧ g.noise.variance = 2 :=
  new_builds_zero_mean_gaussian 1 2 [3] (by decide)

/-- C6: with an empty coefficient sequence the window is empty, `step`
performs no shift (the state is untouched), and the result reduces to
offset plus the noise draw. -/
theorem step_no_coefficients (c v z : ℚ) (g : Autoregressive)
    (hg : Autoregressive.new c v [] = some g) :
    g.x = [] ∧ (g.step z).1 = c + g.noise.sample z ∧ (g.step z).2 = g := by
  obtain ⟨hc, hp, hx, hn, hv⟩ := new_some_fields c v [] g hg
  have hx0 : g.x = [] := by simpa using hx
  refine ⟨hx0, ?_, ?_⟩
  · rw [step_fst, hx0, hc]
    simp
  · cases g with
    | mk gc gx gphi gnoise =>
      simp only at hx0
      subst hx0
      rfl

theorem step_no_coefficients_witness :
    gC.x = [] ∧ (gC.step 9).1 = 3 + gC.noise.sample 9 ∧ (gC.step 9).2 = gC :=
  step_no_coefficients 3 1 9 gC rfl

/-- C7: immediately after construction the window is exactly `N` zeros,
`N` the coefficient count, and after any number of steps it still holds
exactly `N` values. -/
theorem window_length_invariant (c v : ℚ) (phi : List ℚ) (g : Autoregressive)
    (hg : Autoregressive.new c v phi = some g) (zs : List ℚ) :
    g.x = List.replicate phi.length 0 ∧ ((g.run zs).2).x.length = phi.length := by
  obtain ⟨hc, hp, hx, hn, hv⟩ := new_some_fields c v phi g hg
  refine ⟨hx, ?_⟩
  rw [run_snd_x_length, hx, List.length_replicate]

theorem window_length_invariant_witness :
    gD.x = List.replicate ([4, 5] : List ℚ).length 0
      ∧ ((gD.run [1, 2, 3]).2).x.length = ([4, 5] : List ℚ).length :=
  window_length_invariant 0 1 [4, 5] gD rfl [1, 2, 3]

/-- Models the caller overwriting its own coefficient binding after
construction: the caller's array changes, the generator value does not
(Rust copies the `[F; N]` array by value with `*phi`). -/
def mutateCoefficients (s : List ℚ × Autoregressive) (newCoeffs : List ℚ) :
    List ℚ × Autoregressive :=
  (newCoeffs, s.2)

/-- C8: the generator stores the construction-time coefficient values, and
mutating the caller's array afterwards changes neither the stored
coefficients nor any later output. -/
theorem coefficients_copy_independence (c v : ℚ) (phi phi2 : List ℚ) (g : Autoregressive)
    (hg : Autoregressive.new c v phi = some g) :
    g.phi = phi
      ∧ ((mutateCoefficients (phi, g) phi2).2).phi = phi
      ∧ ∀ zs : List ℚ, ((mutateCoefficients (phi, g) phi2).2).run zs = g.run zs := by
  obtain ⟨hc, hp, hx, hn, hv⟩ := new_some_fields c v phi g hg
  exact ⟨hp, hp, fun zs => rfl⟩

theorem coefficients_copy_independence_witness :
    gB.phi = [1/2]
      ∧ ((mutateCoefficients ([1/2], gB) [9]).2).phi = [1/2]
      ∧ ∀ zs : List ℚ, ((mutateCoefficients ([1/2], gB) [9]).2).run zs = gB.run zs :=
  coefficients_copy_independence 0 1 [1/2] [9] gB rfl

/-- C9: each pull on the sequence interface is exactly one `step`: `next`
returns `some` of the step's value together with the stepped state, so it
never signals completion on its own. -/
theorem next_is_one_step (ar : Autoregressive) (z : ℚ) :
    (ar.next z).1 = some ((ar.step z).1) ∧ (ar.next z).2 = (ar.step z).2 :=
  ⟨rfl, rfl⟩

/-- C10: for every variance ≥ 0 (every rational is finite) construction
returns normally: the panic branch of the `unwrap` on the Gaussian
constructor is unreachable. -/
theorem new_nonneg_variance_total (c v : ℚ) (phi : List ℚ) (h : 0 ≤ v) :
    ∃ g, Autoregressive.new c v phi = some g := by
  refine ⟨{ c := c, x := List.replicate phi.length 0, phi := phi,
            noise := { mean := 0, variance := v } }, ?_⟩
  unfold Autoregressive.new Normal.new
  rw [if_neg (not_lt.mpr h)]
  rfl

theorem new_nonneg_variance_total_witness :
    ∃ g, Autoregressive.new 7 0 [] = some g :=
  new_nonneg_variance_total 7 0 [] (by decide)

end univariate
